import Mathlib

/-!
Verification of the bounded-concurrency BigTable ingestion pipeline
(`grid/load/bigtable/load_data.go`) against its specification.

The Go program is shallowly embedded: pure helpers (`runID`, `rowID`,
`colID`, the cell-value encoding) become Lean functions over `String`;
the per-task batch accumulator (`set` closure plus final flush) becomes
explicit state passing over a `BatchState`; the `getRuns` datastore loop
and the `monitor` loop become recursions over explicit input streams;
the semaphore-based scheduler becomes a labelled transition system over
`SchedState` so that claims quantifying over interleavings can be
settled.  Timestamps are abstracted to `Nat` (only their identity
matters to the claims), and byte strings to `String`.
-/

namespace LoadData

/-- Model of `shared.TestRun` restricted to the fields `load_data.go` reads.
`CreatedAtRFC3339` models `run.CreatedAt.UTC().Format(time.RFC3339)`:
the Go time value is carried here already rendered, since only the
rendered form is ever consumed. -/
structure TestRun where
  BrowserName : String
  BrowserVersion : String
  OSName : String
  OSVersion : String
  FullRevisionHash : String
  CreatedAtRFC3339 : String
  RawResultsURL : String
  deriving DecidableEq, Repr

/-- Model of `metrics.SubTest`: name, status, optional message (a `nil` pointer
becomes `none`). -/
structure SubTest where
  Name : String
  Status : String
  Message : Option String
  deriving DecidableEq, Repr

/-- Model of `metrics.TestResults`: test identifier, status, optional message,
sub-test list. -/
structure TestResults where
  Test : String
  Status : String
  Message : Option String
  Subtests : List SubTest
  deriving DecidableEq, Repr

/-- Model of `metrics.TestResultsReport`: the decoded JSON payload. -/
structure TestResultsReport where
  Results : List TestResults
  deriving DecidableEq, Repr

/-- Function `runID` (load_data.go:84-86): the run identity string. -/
def runID (run : TestRun) : String :=
  run.BrowserName ++ "-" ++ run.BrowserVersion ++ "-" ++ run.OSName ++ "-" ++
    run.OSVersion ++ "@" ++ run.FullRevisionHash ++ "#" ++ run.CreatedAtRFC3339

/-- Function `rowID` (load_data.go:88-94): parent test identifier, with the
sub-test name appended after a colon when a sub-test is passed. -/
def rowID (res : TestResults) (sub : Option SubTest) : String :=
  match sub with
  | none => res.Test
  | some s => res.Test ++ ":" ++ s.Name

/-- Function `colID` (load_data.go:96-98): the column key is the run identity. -/
def colID (run : TestRun) : String :=
  runID run

/-- The concrete run of the spec's §8 column-key example. -/
def firefoxRun : TestRun :=
  ⟨"firefox", "70", "linux", "5.0", "abc123", "2020-01-01T00:00:00Z", ""⟩

/-- Modelled from the spec: the §3 identity-string format
`browser-version-os-osversion@hash#createdAtRFC3339`, written out from
the spec's words for comparison with the source's `runID`. -/
def specIdentityString (run : TestRun) : String :=
  run.BrowserName ++ "-" ++ run.BrowserVersion ++ "-" ++ run.OSName ++ "-" ++
    run.OSVersion ++ "@" ++ run.FullRevisionHash ++ "#" ++ run.CreatedAtRFC3339

/-- One wide-column cell as emitted by the per-run task: row key, column
family, column key, write timestamp, value bytes (modelled as `String`,
since the Go code builds the `[]byte` from string concatenation). -/
structure Cell where
  row : String
  family : String
  column : String
  ts : Nat
  value : String
  deriving DecidableEq, Repr

/-- The Go condition `m != nil && *m != ""` guarding message inclusion
(load_data.go:182,189-190,196). -/
def msgPresent : Option String → Bool
  | none => false
  | some s => s != ""

/-- Value bytes for a result without sub-tests
(load_data.go:182-186): `STATUS#MESSAGE` when the message is present,
else `STATUS`. -/
def topCellValue (res : TestResults) : String :=
  if msgPresent res.Message then res.Status ++ "#" ++ res.Message.getD ("")
  else res.Status

/-- Value bytes for one sub-test of a result (load_data.go:189-201):
the four `$`-joined branches on presence of the parent and sub
messages. -/
def subCellValue (res : TestResults) (sub : SubTest) : String :=
  if msgPresent res.Message then
    if msgPresent sub.Message then
      res.Status ++ "#" ++ res.Message.getD ("") ++ "$" ++ sub.Status ++ "#" ++ sub.Message.getD ("")
    else
      res.Status ++ "#" ++ res.Message.getD ("") ++ "$" ++ sub.Status
  else
    if msgPresent sub.Message then
      res.Status ++ "$" ++ sub.Status ++ "#" ++ sub.Message.getD ("")
    else
      res.Status ++ "$" ++ sub.Status

/-- The cells the task emits for one `TestResults` entry
(load_data.go:179-204): one cell at `rowID res nil` when there are no
sub-tests, else one cell per sub-test, every `set` call passing
`rowID(res, nil)` as the row and `colID(run)` as the column. -/
def emitForResult (family : String) (run : TestRun) (ts : Nat) (res : TestResults) : List Cell :=
  if res.Subtests.length = 0 then
    [⟨rowID res none, family, colID run, ts, topCellValue res⟩]
  else
    res.Subtests.map fun sub =>
      ⟨rowID res none, family, colID run, ts, subCellValue res sub⟩

/-- Cells for a whole report, in result order (the `for _, res` loop,
load_data.go:179). -/
def reportCells (family : String) (run : TestRun) (ts : Nat) : List TestResults → List Cell
  | [] => []
  | res :: rest => emitForResult family run ts res ++ reportCells family run ts rest

/-- Modelled from the spec: the §4.4 six-row value-encoding table,
keyed on which of the parent message and (when a sub-result is present)
the sub message are present, a missing and an empty message both
counting as absent. -/
def specMsgAbsent : Option String → Bool
  | none => true
  | some s => s == ""

/-- Modelled from the spec: the encoded value the §4.4 table prescribes
for a status/message pair and an optional (substatus, submessage)
sub-result part. -/
def specValue (status : String) (message : Option String) :
    Option (String × Option String) → String
  | none =>
    if specMsgAbsent message then status
    else status ++ "#" ++ message.getD ("")
  | some (substatus, submessage) =>
    if specMsgAbsent message then
      if specMsgAbsent submessage then status ++ "$" ++ substatus
      else status ++ "$" ++ substatus ++ "#" ++ submessage.getD ("")
    else
      if specMsgAbsent submessage then
        status ++ "#" ++ message.getD ("") ++ "$" ++ substatus
      else
        status ++ "#" ++ message.getD ("") ++ "$" ++ substatus ++ "#" ++ submessage.getD ("")

/-- The HTTP response the environment hands a task: status code and the
body-read outcome (`ioutil.ReadAll` may fail). -/
structure HTTPResponse where
  StatusCode : Nat
  Body : Except Unit String
  deriving Repr

/-- Constant `http.StatusOK`, the one status code the task accepts
(load_data.go:132). -/
def httpStatusOK : Nat := 200

/-- The five early-return reasons of the task body
(load_data.go:126-150), each logged as a warning. -/
inductive SkipReason where
  | fetchFailed
  | nonOKStatus
  | readFailed
  | unmarshalFailed
  | emptyReport
  deriving DecidableEq, Repr

/-- Outcome of one per-run task: an early return with a warning, or the
list of cells it feeds to the accumulator.  There is deliberately no
fatal constructor: no path in the task body (load_data.go:122-218)
calls `log.Fatal`. -/
inductive TaskOutcome where
  | skip : SkipReason → TaskOutcome
  | cells : List Cell → TaskOutcome
  deriving Repr

/-- Stage of the task body after `json.Unmarshal`
(load_data.go:142-150): decode failure and empty report each end the
task early; otherwise the report's results are encoded into cells. -/
def afterUnmarshal (family : String) (ts : Nat) (run : TestRun) :
    Option TestResultsReport → TaskOutcome
  | none => .skip .unmarshalFailed
  | some report =>
    if report.Results.length = 0 then .skip .emptyReport
    else .cells (reportCells family run ts report.Results)

/-- Stage of the task body after the status check
(load_data.go:136-141): a body-read error ends the task early,
otherwise the body is decoded. -/
def afterRead (unmarshal : String → Option TestResultsReport) (family : String) (ts : Nat)
    (run : TestRun) : Except Unit String → TaskOutcome
  | .error _ => .skip .readFailed
  | .ok data => afterUnmarshal family ts run (unmarshal data)

/-- The per-run task body (load_data.go:126-204) as a function of the
environment's fetch result.  `unmarshal` abstracts `json.Unmarshal`
(standard library, outside this repository); `fetched` abstracts
`http.Get` — `Except.error` is a network error, otherwise a response
with status code and body-read outcome. -/
def runTask (unmarshal : String → Option TestResultsReport) (family : String) (ts : Nat)
    (run : TestRun) (fetched : Except Unit HTTPResponse) : TaskOutcome :=
  match fetched with
  | .error _ => .skip .fetchFailed
  | .ok resp =>
    if resp.StatusCode ≠ httpStatusOK then .skip .nonOKStatus
    else afterRead unmarshal family ts run resp.Body

/-- Modelled from the spec: the five skippable per-run conditions of
§4.3 / §7 — fetch network error, non-success HTTP status, body read
error, JSON decode error, empty report. -/
def specSkippable (unmarshal : String → Option TestResultsReport)
    (fetched : Except Unit HTTPResponse) : Prop :=
  fetched = .error () ∨
    ∃ resp, fetched = .ok resp ∧
      (resp.StatusCode ≠ httpStatusOK ∨ resp.Body = .error () ∨
        ∃ data, resp.Body = .ok data ∧
          (unmarshal data = none ∨
            ∃ report, unmarshal data = some report ∧ report.Results = []))

/-- The cells an outcome contributes to the store: a skipped task
writes none. -/
def cellsOf : TaskOutcome → List Cell
  | .skip _ => []
  | .cells cs => cs

/-- Outcomes of the whole pass, one per run, each computed from that
run's own input alone (tasks share no state besides the store client
and the semaphore; load_data.go:121-219). -/
def passOutcomes (unmarshal : String → Option TestResultsReport) (family : String) (ts : Nat) :
    List (TestRun × Except Unit HTTPResponse) → List TaskOutcome
  | [] => []
  | (run, fetched) :: rest =>
    runTask unmarshal family ts run fetched :: passOutcomes unmarshal family ts rest

/-- Every cell written during the pass, across all runs.  The single
`ts` argument models `ts := bigtable.Now()` (load_data.go:117), taken
once before the run loop starts and captured by every task. -/
def passCells (unmarshal : String → Option TestResultsReport) (family : String) (ts : Nat) :
    List (TestRun × Except Unit HTTPResponse) → List Cell
  | [] => []
  | (run, fetched) :: rest =>
    cellsOf (runTask unmarshal family ts run fetched) ++ passCells unmarshal family ts rest

/-- Constant `maxMutationsPerBatch` (load_data.go:47). -/
def maxMutationsPerBatch : Nat := 100000

/-- Constant `numConcurrentRuns` (load_data.go:46). -/
def numConcurrentRuns : Nat := 100

/-- Constant `maxHeapAlloc` (load_data.go:48): `uint64(4.5e+10)` bytes. -/
def maxHeapAlloc : Nat := 45000000000

/-- One BigTable mutation as built by the `set` closure
(load_data.go:155-156,176): `mut.Set(family, column, ts, value)`. -/
structure Mutation where
  family : String
  column : String
  ts : Nat
  value : String
  deriving DecidableEq, Repr

/-- The mutation the `set` closure builds for a cell. -/
def mutOfCell (c : Cell) : Mutation :=
  ⟨c.family, c.column, c.ts, c.value⟩

/-- State of one task's accumulator: the pending `muts` and `rows`
slices (load_data.go:153-154) plus the trace of `tbl.ApplyBulk` calls
issued so far, each recorded as the (rows, mutations) pair it was
given. -/
structure BatchState where
  muts : List Mutation
  rows : List String
  flushes : List (List String × List Mutation)
  deriving DecidableEq, Repr

/-- The empty accumulator (load_data.go:153-154). -/
def initBatch : BatchState :=
  ⟨[], [], []⟩

/-- The `set` closure (load_data.go:155-177): build the mutation; if
the pending count has reached `maxM`, bulk-apply the whole pending
batch and reset both slices; then append the mutation and its row. -/
def setCell (maxM : Nat) (st : BatchState) (row family column : String) (ts : Nat)
    (value : String) : BatchState :=
  let m : Mutation := ⟨family, column, ts, value⟩
  let st1 : BatchState :=
    if st.muts.length = maxM then
      ⟨[], [], st.flushes ++ [(st.rows, st.muts)]⟩
    else
      st
  ⟨st1.muts ++ [m], st1.rows ++ [row], st1.flushes⟩

/-- Feeding a list of cells through `set` in order (the emission loop,
load_data.go:179-204). -/
def addCells (maxM : Nat) (st : BatchState) : List Cell → BatchState
  | [] => st
  | c :: cs => addCells maxM (setCell maxM st c.row c.family c.column c.ts c.value) cs

/-- The task-completion flush (load_data.go:206-217): one more
bulk-apply when, and only when, mutations are pending. -/
def finalFlush (st : BatchState) : BatchState :=
  if st.muts.length > 0 then ⟨st.muts, st.rows, st.flushes ++ [(st.rows, st.muts)]⟩
  else st

/-- A whole task's accumulator history: start empty, add every cell,
flush the remainder. -/
def runBatch (maxM : Nat) (cells : List Cell) : BatchState :=
  finalFlush (addCells maxM initBatch cells)

/-- Alignment of a rows slice with a mutations slice: both are the
images of one list of cells, so they have equal length and the
mutation at index i was built for the row key at index i. -/
def Aligned (rows : List String) (muts : List Mutation) : Prop :=
  ∃ pend : List Cell, rows = pend.map Cell.row ∧ muts = pend.map mutOfCell

/-- A datastore key; `main` discards the keys `getRuns` returns, so
only their count matters here. -/
structure DSKey where
  id : Nat
  deriving DecidableEq, Repr

/-- One event of the datastore iterator: a yielded (key, run) pair or
an iteration error; the iterator's `Done` is the end of the stream. -/
inductive ItStep where
  | next : DSKey → TestRun → ItStep
  | fail : ItStep
  deriving DecidableEq, Repr

/-- A datastore query: entity kind and order field (ascending unless
the field is prefixed with a minus sign, per the datastore API). -/
structure Query where
  kind : String
  order : String
  deriving DecidableEq, Repr

/-- The one query `getRuns` issues (load_data.go:65):
`datastore.NewQuery("TestRun").Order("CreatedAt")`. -/
def testRunQuery : Query :=
  ⟨"TestRun", "CreatedAt"⟩

/-- The (key, run) pairs a step stream yields. -/
def itemsOf : List ItStep → List (DSKey × TestRun)
  | [] => []
  | .next k r :: rest => (k, r) :: itemsOf rest
  | .fail :: rest => itemsOf rest

/-- The iteration loop of `getRuns` (load_data.go:69-80): append each
yielded pair; `log.Fatal` on an iteration error aborts the process,
modelled as `none` — no partial list ever escapes. -/
def getRunsLoop : List ItStep → List DSKey → List TestRun →
    Option (List DSKey × List TestRun)
  | [], keys, testRuns => some (keys, testRuns)
  | .next k r :: rest, keys, testRuns => getRunsLoop rest (keys ++ [k]) (testRuns ++ [r])
  | .fail :: _, _, _ => none

/-- Function `getRuns` (load_data.go:64-82): run `testRunQuery` against the
client (modelled as a function from queries to event streams) and
materialize the full result set. -/
def getRuns (client : Query → List ItStep) : Option (List DSKey × List TestRun) :=
  getRunsLoop (client testRunQuery) [] []

/-- The `monitor` loop (load_data.go:51-62) over the stream of heap
samples successive ticks read: `log.Fatal` at the first sample
strictly above the threshold, returning that tick's index; `none`
means every tick logged its sample and the loop kept running. -/
def monitorRun (threshold : Nat) : List Nat → Option Nat
  | [] => none
  | s :: rest =>
    if s > threshold then some 0
    else (monitorRun threshold rest).map (· + 1)

/-- Phase of one spawned per-run goroutine with respect to the
semaphore (load_data.go:122-124): not yet at its `Acquire(1)`, holding
its permit, or finished and released. -/
inductive TaskPhase where
  | notStarted
  | running
  | finished
  deriving DecidableEq, Repr

/-- Scheduler state: the phase of each spawned goroutine, the
semaphore's available weight, and whether main's final
`Acquire(numConcurrentRuns)` (load_data.go:221) has succeeded. -/
structure SchedState where
  tasks : List TaskPhase
  avail : Nat
  mainDone : Bool
  deriving DecidableEq, Repr

/-- The state right after the spawn loop (load_data.go:121-219): every
goroutine spawned but none yet past `Acquire(1)`, the semaphore at full
capacity, main not yet through its final acquire. -/
def initSched (cap n : Nat) : SchedState :=
  ⟨List.replicate n .notStarted, cap, false⟩

/-- Interleaving semantics of the scheduler.  A goroutine's
`sem.Acquire(ctx, 1)` runs inside the goroutine after it is spawned
(load_data.go:123), so it needs a step of its own; finishing releases
the permit (the deferred `sem.Release(1)`, load_data.go:124); main's
`sem.Acquire(ctx, numConcurrentRuns)` fires whenever the full capacity
is available. -/
inductive SchedStep (cap : Nat) : SchedState → SchedState → Prop where
  | taskAcquire (s : SchedState) (i : Nat) (h : s.tasks[i]? = some .notStarted)
      (ha : 1 ≤ s.avail) :
      SchedStep cap s ⟨s.tasks.set i .running, s.avail - 1, s.mainDone⟩
  | taskFinish (s : SchedState) (i : Nat) (h : s.tasks[i]? = some .running) :
      SchedStep cap s ⟨s.tasks.set i .finished, s.avail + 1, s.mainDone⟩
  | mainAcquire (s : SchedState) (h : s.mainDone = false) (ha : cap ≤ s.avail) :
      SchedStep cap s ⟨s.tasks, s.avail - cap, true⟩

/-- Reachability from the post-spawn state under some interleaving. -/
def SchedReachable (cap n : Nat) (s : SchedState) : Prop :=
  Relation.ReflTransGen (SchedStep cap) (initSched cap n) s

/-- The default `output_bt_family` flag value (load_data.go:43). -/
def runsFamily : String :=
  "runs"

/-- A concrete sub-test used to evaluate the theorems. -/
def sampleSub : SubTest :=
  ⟨"sub1", "PASS", none⟩

/-- A concrete result with one sub-test. -/
def sampleRes : TestResults :=
  ⟨"a/b.html", "OK", none, [sampleSub]⟩

/-- The cell `emitForResult` produces for `sampleRes`/`sampleSub`. -/
def sampleCell : Cell :=
  ⟨"a/b.html", runsFamily, colID firefoxRun, 3, "OK$PASS"⟩

/-- A concrete one-result report. -/
def sampleReport : TestResultsReport :=
  ⟨[⟨"t1", "OK", none, []⟩]⟩

/-- A concrete decoder that always yields `sampleReport`. -/
def sampleUnmarshal : String → Option TestResultsReport :=
  fun _ => some sampleReport

/-- A concrete successful fetch result. -/
def sampleFetched : Except Unit HTTPResponse :=
  Except.ok ⟨200, Except.ok ("")⟩

/-- Three concrete cells for exercising the accumulator. -/
def sampleCells : List Cell :=
  [⟨"r1", runsFamily, "c1", 0, "OK"⟩,
    ⟨"r2", runsFamily, "c2", 0, "FAIL"⟩,
    ⟨"r3", runsFamily, "c3", 0, "OK"⟩]

end LoadData

namespace LoadData

/-- Claim C8: for every run descriptor the column key is the identity
string `browser-version-os-osversion@hash#createdAtRFC3339`, and on the
concrete firefox run of the spec it evaluates to
`firefox-70-linux-5.0@abc123#2020-01-01T00:00:00Z`. -/
theorem colID_is_identity_string :
    (∀ run : TestRun, colID run = specIdentityString run) ∧
      colID firefoxRun = "firefox-70-linux-5.0@abc123#2020-01-01T00:00:00Z" := by
  refine ⟨fun run => rfl, ?_⟩
  decide

theorem specMsgAbsent_eq_not_msgPresent (m : Option String) :
    specMsgAbsent m = !msgPresent m := by
  cases m with
  | none => rfl
  | some s =>
    show (s == "") = !(s != "")
    rw [bne, Bool.not_not]

theorem topCellValue_eq_spec (res : TestResults) :
    topCellValue res = specValue res.Status res.Message none := by
  unfold topCellValue specValue
  rw [specMsgAbsent_eq_not_msgPresent]
  cases hm : msgPresent res.Message <;> simp

theorem subCellValue_eq_spec (res : TestResults) (sub : SubTest) :
    subCellValue res sub = specValue res.Status res.Message (some (sub.Status, sub.Message)) := by
  unfold subCellValue specValue
  cases hm : msgPresent res.Message <;> cases hs : msgPresent sub.Message <;>
    simp [specMsgAbsent_eq_not_msgPresent, hm, hs]

/-- Claim C2: for every test result, optional sub-result and run, the
emitted value bytes are exactly the literal composition the §4.4
six-row table prescribes, a missing message and an empty-string message
both counting as absent. -/
theorem encoded_values_match_spec_table (family : String) (run : TestRun) (ts : Nat)
    (res : TestResults) :
    (emitForResult family run ts res).map Cell.value =
      match res.Subtests with
      | [] => [specValue res.Status res.Message none]
      | subs => subs.map fun sub => specValue res.Status res.Message (some (sub.Status, sub.Message)) := by
  cases h : res.Subtests with
  | nil =>
    simp [emitForResult, h, topCellValue_eq_spec]
  | cons a l =>
    simp only [emitForResult, h, List.length_cons]
    rw [if_neg (by omega)]
    simp [List.map_map, Function.comp, subCellValue_eq_spec]

theorem mem_emitForResult_row (family : String) (run : TestRun) (ts : Nat)
    (res : TestResults) (c : Cell) (hc : c ∈ emitForResult family run ts res) :
    c.row = res.Test := by
  unfold emitForResult at hc
  by_cases h0 : res.Subtests.length = 0
  · rw [if_pos h0] at hc
    rw [List.mem_singleton] at hc
    subst hc
    rfl
  · rw [if_neg h0] at hc
    rw [List.mem_map] at hc
    obtain ⟨sub, _, rfl⟩ := hc
    rfl

/-- Claim C1: every emitted cell, including every cell emitted for a
sub-result, has the parent test identifier as its row key, and the row
key is never the `test:subtest` form that `rowID` produces when handed
a sub-test. -/
theorem row_key_is_parent_test_id (family : String) (run : TestRun) (ts : Nat)
    (res : TestResults) (c : Cell) (hc : c ∈ emitForResult family run ts res) :
    c.row = res.Test ∧ ∀ sub : SubTest, c.row ≠ rowID res (some sub) := by
  have hrow := mem_emitForResult_row family run ts res c hc
  refine ⟨hrow, fun sub heq => ?_⟩
  rw [hrow] at heq
  have hlen := congrArg String.length heq
  rw [rowID] at hlen
  rw [String.length_append, String.length_append] at hlen
  have hcolon : (":" : String).length = 1 := rfl
  rw [hcolon] at hlen
  omega

/-- Witness for C1 on a concrete run, result and sub-result cell. -/
theorem row_key_is_parent_test_id_witness :
    sampleCell ∈ emitForResult runsFamily firefoxRun 3 sampleRes ∧
      (sampleCell.row = sampleRes.Test ∧
        ∀ sub : SubTest, sampleCell.row ≠ rowID sampleRes (some sub)) :=
  ⟨by decide,
    row_key_is_parent_test_id runsFamily firefoxRun 3 sampleRes sampleCell (by decide)⟩

theorem passOutcomes_length (u : String → Option TestResultsReport) (family : String)
    (ts : Nat) (inputs : List (TestRun × Except Unit HTTPResponse)) :
    (passOutcomes u family ts inputs).length = inputs.length := by
  induction inputs with
  | nil => rfl
  | cons p rest ih =>
    obtain ⟨run, fetched⟩ := p
    simp only [passOutcomes, List.length_cons, ih]

/-- Claim C5: a per-run task ends in an early logged return, writing no
cells, exactly when one of the five skippable conditions holds — fetch
network error, non-OK HTTP status, body read error, JSON unmarshal
error, or an empty results list — and the pass still yields an outcome
for every run (no skip aborts the process or a sibling task). -/
theorem task_skips_exactly_on_skippable_conditions
    (u : String → Option TestResultsReport) (family : String) (ts : Nat)
    (run : TestRun) (fetched : Except Unit HTTPResponse) :
    ((∃ reason, runTask u family ts run fetched = .skip reason) ↔ specSkippable u fetched) ∧
      (∀ reason, runTask u family ts run fetched = .skip reason →
        cellsOf (runTask u family ts run fetched) = []) ∧
      ∀ inputs : List (TestRun × Except Unit HTTPResponse),
        (passOutcomes u family ts inputs).length = inputs.length := by
  refine ⟨?_, ?_, passOutcomes_length u family ts⟩
  · cases fetched with
    | error e =>
      cases e
      simp [runTask, specSkippable]
    | ok resp =>
      by_cases h200 : resp.StatusCode = httpStatusOK
      · cases hb : resp.Body with
        | error e =>
          cases e
          simp [runTask, afterRead, specSkippable, h200, hb]
        | ok data =>
          cases hu : u data with
          | none => simp [runTask, afterRead, afterUnmarshal, specSkippable, h200, hb, hu]
          | some report =>
            by_cases hlen : report.Results.length = 0
            · have hnil := List.length_eq_zero.mp hlen
              simp [runTask, afterRead, afterUnmarshal, specSkippable, h200, hb, hu, hlen, hnil]
            · have hne : report.Results ≠ [] := by
                intro h
                rw [h] at hlen
                exact hlen rfl
              simp [runTask, afterRead, afterUnmarshal, specSkippable, h200, hb, hu, hlen, hne]
      · simp [runTask, specSkippable, h200]
  · intro reason h
    rw [h]
    rfl

theorem mem_emitForResult_ts (family : String) (run : TestRun) (ts : Nat)
    (res : TestResults) (c : Cell) (hc : c ∈ emitForResult family run ts res) :
    c.ts = ts := by
  unfold emitForResult at hc
  by_cases h0 : res.Subtests.length = 0
  · rw [if_pos h0] at hc
    rw [List.mem_singleton] at hc
    subst hc
    rfl
  · rw [if_neg h0] at hc
    rw [List.mem_map] at hc
    obtain ⟨sub, _, rfl⟩ := hc
    rfl

theorem mem_reportCells_ts (family : String) (run : TestRun) (ts : Nat)
    (results : List TestResults) (c : Cell) (hc : c ∈ reportCells family run ts results) :
    c.ts = ts := by
  induction results with
  | nil => simp [reportCells] at hc
  | cons r rest ih =>
    simp only [reportCells] at hc
    rcases List.mem_append.mp hc with h | h
    · exact mem_emitForResult_ts family run ts r c h
    · exact ih h

theorem runTask_skip_or_reportCells (u : String → Option TestResultsReport)
    (family : String) (ts : Nat) (run : TestRun) (fetched : Except Unit HTTPResponse) :
    (∃ r, runTask u family ts run fetched = .skip r) ∨
      ∃ results, runTask u family ts run fetched = .cells (reportCells family run ts results) := by
  cases fetched with
  | error e => exact Or.inl ⟨_, rfl⟩
  | ok resp =>
    simp only [runTask]
    by_cases h200 : resp.StatusCode ≠ httpStatusOK
    · rw [if_pos h200]
      exact Or.inl ⟨_, rfl⟩
    · rw [if_neg h200]
      cases hb : resp.Body with
      | error e => exact Or.inl ⟨_, rfl⟩
      | ok data =>
        simp only [afterRead]
        cases hu : u data with
        | none => exact Or.inl ⟨_, rfl⟩
        | some report =>
          simp only [afterUnmarshal]
          by_cases hlen : report.Results.length = 0
          · rw [if_pos hlen]
            exact Or.inl ⟨_, rfl⟩
          · rw [if_neg hlen]
            exact Or.inr ⟨_, rfl⟩

theorem cellsOf_runTask_ts (u : String → Option TestResultsReport) (family : String)
    (ts : Nat) (run : TestRun) (fetched : Except Unit HTTPResponse) (c : Cell)
    (hc : c ∈ cellsOf (runTask u family ts run fetched)) : c.ts = ts := by
  rcases runTask_skip_or_reportCells u family ts run fetched with ⟨r, h⟩ | ⟨results, h⟩
  · rw [h] at hc
    simp [cellsOf] at hc
  · rw [h] at hc
    exact mem_reportCells_ts family run ts results c hc

/-- Claim C6: the single pass-wide timestamp, fixed before any task
starts (`ts := bigtable.Now()`, load_data.go:117), is the write
timestamp of every cell written during the pass, across all runs. -/
theorem pass_cells_share_single_timestamp (u : String → Option TestResultsReport)
    (family : String) (ts : Nat) (inputs : List (TestRun × Except Unit HTTPResponse))
    (c : Cell) (hc : c ∈ passCells u family ts inputs) : c.ts = ts := by
  induction inputs with
  | nil => simp [passCells] at hc
  | cons p rest ih =>
    obtain ⟨run, fetched⟩ := p
    simp only [passCells] at hc
    rcases List.mem_append.mp hc with h | h
    · exact cellsOf_runTask_ts u family ts run fetched c h
    · exact ih h

/-- Witness for C6 on a concrete one-run pass. -/
theorem pass_cells_share_single_timestamp_witness :
    (⟨"t1", runsFamily, colID firefoxRun, 7, "OK"⟩ : Cell) ∈
        passCells sampleUnmarshal runsFamily 7 [(firefoxRun, sampleFetched)] ∧
      (⟨"t1", runsFamily, colID firefoxRun, 7, "OK"⟩ : Cell).ts = 7 :=
  ⟨by decide,
    pass_cells_share_single_timestamp sampleUnmarshal runsFamily 7
      [(firefoxRun, sampleFetched)]
      ⟨"t1", runsFamily, colID firefoxRun, 7, "OK"⟩ (by decide)⟩

theorem getRunsLoop_none_iff (steps : List ItStep) (keys : List DSKey)
    (runs0 : List TestRun) :
    getRunsLoop steps keys runs0 = none ↔ ItStep.fail ∈ steps := by
  induction steps generalizing keys runs0 with
  | nil => simp [getRunsLoop]
  | cons s rest ih =>
    cases s with
    | next k r => simp [getRunsLoop, ih]
    | fail => simp [getRunsLoop]

theorem getRunsLoop_ok (steps : List ItStep) (hs : ItStep.fail ∉ steps) (keys : List DSKey)
    (runs0 : List TestRun) :
    getRunsLoop steps keys runs0 =
      some (keys ++ (itemsOf steps).map Prod.fst, runs0 ++ (itemsOf steps).map Prod.snd) := by
  induction steps generalizing keys runs0 with
  | nil => simp [getRunsLoop, itemsOf]
  | cons s rest ih =>
    cases s with
    | next k r =>
      have hs' : ItStep.fail ∉ rest := fun h => hs (List.mem_cons_of_mem _ h)
      simp only [getRunsLoop, itemsOf, ih hs', List.map_cons]
      simp
    | fail => exact absurd (List.mem_cons_self _ _) hs

/-- Claim C7: `getRuns` issues the one `TestRun` query ordered
ascending by `CreatedAt`; when iteration never fails it materializes
the full result set, and any iteration failure aborts the process
(`log.Fatal`), so a partial run list is never returned. -/
theorem getRuns_materializes_fully_or_aborts (client : Query → List ItStep) :
    (getRuns client = none ↔ ItStep.fail ∈ client testRunQuery) ∧
      (ItStep.fail ∉ client testRunQuery →
        getRuns client = some ((itemsOf (client testRunQuery)).map Prod.fst,
          (itemsOf (client testRunQuery)).map Prod.snd)) ∧
      testRunQuery.kind = "TestRun" ∧ testRunQuery.order = "CreatedAt" := by
  refine ⟨getRunsLoop_none_iff _ _ _, fun hs => ?_, rfl, rfl⟩
  have h := getRunsLoop_ok (client testRunQuery) hs [] []
  simpa [getRuns] using h

/-- Claim C9: on the stream of heap samples the monitor reads, the
loop keeps running (logging each tick) exactly when no sample exceeds
the threshold; when it stops, it stops at the first sample strictly
above the threshold, every earlier sample being within bounds. -/
theorem monitor_aborts_iff_heap_exceeds_threshold (threshold : Nat) (samples : List Nat) :
    (monitorRun threshold samples = none ↔ ∀ s ∈ samples, s ≤ threshold) ∧
      ∀ i, monitorRun threshold samples = some i →
        ∃ s, samples[i]? = some s ∧ threshold < s ∧
          ∀ j, j < i → ∀ s', samples[j]? = some s' → s' ≤ threshold := by
  induction samples with
  | nil =>
    refine ⟨by simp [monitorRun], fun i h => ?_⟩
    simp [monitorRun] at h
  | cons s rest ih =>
    constructor
    · by_cases h : s > threshold
      · constructor
        · intro habs
          rw [monitorRun, if_pos h] at habs
          simp at habs
        · intro hall
          exact absurd (hall s (List.mem_cons_self s rest)) (by omega)
      · rw [monitorRun, if_neg h, Option.map_eq_none', ih.1, List.forall_mem_cons]
        have hs : s ≤ threshold := by omega
        simp [hs]
    · intro i hi
      rw [monitorRun] at hi
      by_cases h : s > threshold
      · rw [if_pos h] at hi
        rw [Option.some.injEq] at hi
        subst hi
        exact ⟨s, by simp, h, fun j hj => absurd hj (Nat.not_lt_zero j)⟩
      · rw [if_neg h] at hi
        rw [Option.map_eq_some'] at hi
        obtain ⟨i', hi', rfl⟩ := hi
        obtain ⟨x, hx, hlt, hprev⟩ := ih.2 i' hi'
        refine ⟨x, by simpa using hx, hlt, fun j hj s' hs' => ?_⟩
        cases j with
        | zero =>
          simp at hs'
          omega
        | succ jj =>
          rw [List.getElem?_cons_succ] at hs'
          exact hprev jj (by omega) s' hs'

theorem setCell_flushes (maxM : Nat) (st : BatchState) (row family column : String)
    (ts : Nat) (value : String) :
    (setCell maxM st row family column ts value).flushes =
        st.flushes ++ (if st.muts.length = maxM then [(st.rows, st.muts)] else []) ∧
      (setCell maxM st row family column ts value).muts =
        (if st.muts.length = maxM then [] else st.muts) ++ [⟨family, column, ts, value⟩] ∧
      (setCell maxM st row family column ts value).rows =
        (if st.muts.length = maxM then [] else st.rows) ++ [row] := by
  unfold setCell
  by_cases h : st.muts.length = maxM <;> simp [h]

theorem finalFlush_flushes (st : BatchState) :
    (finalFlush st).flushes =
      st.flushes ++ (if st.muts.length > 0 then [(st.rows, st.muts)] else []) := by
  unfold finalFlush
  by_cases h : st.muts.length > 0 <;> simp [h]

theorem addCells_bounded (maxM : Nat) (hm : 1 ≤ maxM) (cells : List Cell) (st : BatchState)
    (h1 : st.muts.length ≤ maxM) (h2 : ∀ b ∈ st.flushes, b.2.length = maxM) :
    (addCells maxM st cells).muts.length ≤ maxM ∧
      ∀ b ∈ (addCells maxM st cells).flushes, b.2.length = maxM := by
  induction cells generalizing st with
  | nil => exact ⟨h1, h2⟩
  | cons c cs ih =>
    simp only [addCells]
    apply ih
    · rw [(setCell_flushes maxM st c.row c.family c.column c.ts c.value).2.1]
      by_cases h : st.muts.length = maxM
      · rw [if_pos h]
        simpa using hm
      · rw [if_neg h]
        simp only [List.length_append, List.length_singleton]
        omega
    · rw [(setCell_flushes maxM st c.row c.family c.column c.ts c.value).1]
      by_cases h : st.muts.length = maxM
      · rw [if_pos h]
        intro b hb
        rcases List.mem_append.mp hb with hb' | hb'
        · exact h2 b hb'
        · rw [List.mem_singleton] at hb'
          subst hb'
          exact h
      · rw [if_neg h]
        simpa using h2

/-- Claim C4: a `set` call bulk-applies exactly when the pending count
has reached the configured maximum — flushing the full batch before
appending the triggering cell — so every mid-run flush carries exactly
`maxM` mutations, the pending batch never exceeds `maxM`, and at task
completion a non-empty remainder is flushed once while an empty
remainder causes no bulk-apply. -/
theorem batch_flushes_exactly_at_max (maxM : Nat) (hm : 1 ≤ maxM) (cells : List Cell) :
    (∀ st : BatchState, ∀ row family column : String, ∀ ts : Nat, ∀ value : String,
        (setCell maxM st row family column ts value).flushes =
          st.flushes ++ (if st.muts.length = maxM then [(st.rows, st.muts)] else []) ∧
          (setCell maxM st row family column ts value).muts =
            (if st.muts.length = maxM then [] else st.muts) ++ [⟨family, column, ts, value⟩]) ∧
      (addCells maxM initBatch cells).muts.length ≤ maxM ∧
      (∀ b ∈ (addCells maxM initBatch cells).flushes, b.2.length = maxM) ∧
      ((addCells maxM initBatch cells).muts = [] →
        runBatch maxM cells = addCells maxM initBatch cells) ∧
      ((addCells maxM initBatch cells).muts ≠ [] →
        (runBatch maxM cells).flushes =
          (addCells maxM initBatch cells).flushes ++
            [((addCells maxM initBatch cells).rows, (addCells maxM initBatch cells).muts)]) := by
  have hinv := addCells_bounded maxM hm cells initBatch (by simp [initBatch]) (by simp [initBatch])
  refine ⟨fun st row family column ts value =>
      ⟨(setCell_flushes maxM st row family column ts value).1,
        (setCell_flushes maxM st row family column ts value).2.1⟩,
    hinv.1, hinv.2, fun hempty => ?_, fun hne => ?_⟩
  · unfold runBatch finalFlush
    rw [hempty]
    simp
  · unfold runBatch
    rw [finalFlush_flushes]
    rw [if_pos (List.length_pos.mpr hne)]

/-- Witness for C4 at batch size 2 over three concrete cells. -/
theorem batch_flushes_exactly_at_max_witness :
    1 ≤ 2 ∧ (addCells 2 initBatch sampleCells).muts.length ≤ 2 :=
  ⟨by decide, (batch_flushes_exactly_at_max 2 (by decide) sampleCells).2.1⟩

theorem Aligned.append_cell {rows : List String} {muts : List Mutation} (c : Cell)
    (h : Aligned rows muts) : Aligned (rows ++ [c.row]) (muts ++ [mutOfCell c]) := by
  obtain ⟨pend, hr, hm⟩ := h
  exact ⟨pend ++ [c], by simp [hr], by simp [hm]⟩

theorem addCells_aligned (maxM : Nat) (cells : List Cell) (st : BatchState)
    (h1 : Aligned st.rows st.muts) (h2 : ∀ b ∈ st.flushes, Aligned b.1 b.2) :
    Aligned (addCells maxM st cells).rows (addCells maxM st cells).muts ∧
      ∀ b ∈ (addCells maxM st cells).flushes, Aligned b.1 b.2 := by
  induction cells generalizing st with
  | nil => exact ⟨h1, h2⟩
  | cons c cs ih =>
    simp only [addCells]
    apply ih
    · rw [(setCell_flushes maxM st c.row c.family c.column c.ts c.value).2.1,
        (setCell_flushes maxM st c.row c.family c.column c.ts c.value).2.2]
      by_cases h : st.muts.length = maxM
      · rw [if_pos h, if_pos h]
        exact Aligned.append_cell c ⟨[], rfl, rfl⟩
      · rw [if_neg h, if_neg h]
        exact Aligned.append_cell c h1
    · rw [(setCell_flushes maxM st c.row c.family c.column c.ts c.value).1]
      by_cases h : st.muts.length = maxM
      · rw [if_pos h]
        intro b hb
        rcases List.mem_append.mp hb with hb' | hb'
        · exact h2 b hb'
        · rw [List.mem_singleton] at hb'
          subst hb'
          exact h1
      · rw [if_neg h]
        simpa using h2

/-- Claim C10: in every reachable accumulator state the pending row
and mutation lists are the images of one list of cells — equal length,
the mutation at index i built for the row key at index i — and every
bulk-apply call receives equal-length, element-wise aligned slices. -/
theorem bulk_apply_rows_muts_aligned (maxM : Nat) (cells : List Cell) :
    Aligned (addCells maxM initBatch cells).rows (addCells maxM initBatch cells).muts ∧
      ∀ b ∈ (runBatch maxM cells).flushes,
        Aligned b.1 b.2 ∧ b.1.length = b.2.length := by
  have hinv := addCells_aligned maxM cells initBatch ⟨[], rfl, rfl⟩ (by simp [initBatch])
  have hlen : ∀ rows : List String, ∀ muts : List Mutation,
      Aligned rows muts → rows.length = muts.length := by
    rintro rows muts ⟨pend, rfl, rfl⟩
    simp
  refine ⟨hinv.1, fun b hb => ?_⟩
  unfold runBatch at hb
  rw [finalFlush_flushes] at hb
  rcases List.mem_append.mp hb with hb' | hb'
  · exact ⟨hinv.2 b hb', hlen _ _ (hinv.2 b hb')⟩
  · by_cases h : (addCells maxM initBatch cells).muts.length > 0
    · rw [if_pos h] at hb'
      rw [List.mem_singleton] at hb'
      subst hb'
      exact ⟨hinv.1, hlen _ _ hinv.1⟩
    · rw [if_neg h] at hb'
      simp at hb'

/-- Claim C3 (refuted by the code): the goroutines only acquire their
semaphore unit inside themselves after being spawned
(load_data.go:122-123), so the interleaving in which main's
`sem.Acquire(ctx, numConcurrentRuns)` runs before any task's
`Acquire(1)` lets the full-capacity acquisition succeed while a spawned
task has not even started, let alone completed and flushed. -/
theorem full_acquire_can_succeed_before_any_task_runs :
    ∃ s : SchedState, SchedReachable numConcurrentRuns 1 s ∧ s.mainDone = true ∧
      s.tasks[0]? = some TaskPhase.notStarted := by
  refine ⟨⟨[TaskPhase.notStarted], 0, true⟩, ?_, rfl, rfl⟩
  have hstep :=
    @SchedStep.mainAcquire numConcurrentRuns (initSched numConcurrentRuns 1) rfl (by decide)
  exact Relation.ReflTransGen.single hstep

end LoadData
